import Mathlib

/-!
# Verification of the grid-combat simulator (`src/aoc15/src/main.rs`)

A shallow embedding of the combat simulator: the dense entity grid, the
reading-order turn engine, the recursive flood-fill pathfinder and the
round loop, translated function by function from the Rust source.

Modelling conventions:
* `usize` indices and `u8` values become `Nat`; the one place where `u8`
  wrap-around matters (`HitPoints::hit` uses `overflowing_sub`) is modelled
  by its observable behaviour: the subtraction clamps at 0 and reports death.
* Slice indexing out of bounds panics in Rust; the embedding reads such a
  cell as a `Wall` (`List.getD` with default `.Wall`), which is inert for
  every algorithm here.  All concrete boards used below are wall-bordered,
  so the default is never reached on them.  Likewise `%` by a zero width
  panics in Rust while `Nat.mod 0` is the identity; theorems that depend on
  the board geometry therefore assume `1 ≤ width`.
* The recursive procedures `calculate_path` and `find_path_to_target` are
  given an explicit fuel argument (the source recursion is unbounded); fuel
  256 is canonical, and fuel-independence is proved where it matters.
* Fallible parsing returns `Except String Board`, mirroring
  `Result<Board, Error>`.
-/

set_option maxRecDepth 40000

namespace Aoc15

inductive Entity where
  | Empty : Entity
  | Wall : Entity
  | Elf : Nat → Entity
  | Goblin : Nat → Entity
  deriving DecidableEq, Repr

/-- The dense grid: row-major list of cells plus the row width,
mirroring `struct Board { entities: Vec<Entity>, width: usize }`. -/
structure Board where
  entities : List Entity
  width : Nat
  deriving DecidableEq, Repr

inductive Direction where
  | North : Direction
  | West : Direction
  | East : Direction
  | South : Direction
  deriving DecidableEq, Repr

/-- `const DIRECTIONS: [Direction; 4] = [North, West, East, South]`. -/
def DIRECTIONS : List Direction := [.North, .West, .East, .South]

/-- `const UNREACHABLE: u8 = u8::max_value()`. -/
def UNREACHABLE : Nat := 255

/-- `const AP: u8 = 3`. -/
def AP : Nat := 3

/-- `const HP: HitPoints = HitPoints(200)`. -/
def HP : Nat := 200

/-- `Position::to`: one step in a direction, with the same guards as the
source (`checked_sub`, and the `% width` edge tests for West/East). -/
def Position.to (p width : Nat) (d : Direction) : Option Nat :=
  match d with
  | .North => if width ≤ p then some (p - width) else none
  | .West => if p % width ≠ 0 then some (p - 1) else none
  | .East => if p % width ≠ width - 1 then some (p + 1) else none
  | .South => some (p + width)

/-- Cell lookup, `self.entities[position]`; out of range reads as `Wall`
(the source would panic there; see the module comment). -/
def Board.entityAt (b : Board) (p : Nat) : Entity :=
  b.entities.getD p .Wall

/-- The list of existing neighbours of `p` in `DIRECTIONS` order. -/
def Board.nbrs (b : Board) (p : Nat) : List Nat :=
  DIRECTIONS.filterMap (fun d => Position.to p b.width d)

/-- One comparison step of `Iterator::min_by_key`: keep `x` unless the
current best has a strictly smaller key. -/
def minStep {α : Type} (key : α → Nat) (x : α) : Option α → Option α
  | none => some x
  | some y => if key x ≤ key y then some x else some y

/-- `Iterator::min_by_key` on a list: the first element attaining the
minimal key, `none` on the empty list. -/
def minByFirst {α : Type} (key : α → Nat) : List α → Option α
  | [] => none
  | x :: xs => minStep key x (minByFirst key xs)

/-- `HitPoints::hit`: subtract `AP` with clamping at zero (the source uses
`overflowing_sub` and resets to 0 on hitting zero or wrapping), returning
the new value and whether the unit died. -/
def HitPoints.hit (hp : Nat) : Nat × Bool :=
  if hp ≤ AP then (0, true) else (hp - AP, false)

/-- `Board::attack`: damage the unit at `position`; on death the cell is
cleared to `Empty` (`Entity::die`).  The source panics when the cell holds
no unit; the embedding leaves the board unchanged there (never reached). -/
def Board.attack (b : Board) (p : Nat) : Board :=
  match b.entityAt p with
  | .Goblin hp =>
    if (HitPoints.hit hp).2 then { b with entities := b.entities.set p .Empty }
    else { b with entities := b.entities.set p (.Goblin (HitPoints.hit hp).1) }
  | .Elf hp =>
    if (HitPoints.hit hp).2 then { b with entities := b.entities.set p .Empty }
    else { b with entities := b.entities.set p (.Elf (HitPoints.hit hp).1) }
  | _ => b

inductive Action where
  | Wait : Action
  | Attack : Nat → Action
  | Move : Action
  deriving DecidableEq, Repr

/-- Does the cell hold a living unit (`Elf(_) | Goblin(_)` match arms)? -/
def isUnit (e : Entity) : Bool :=
  match e with
  | .Elf _ => true
  | .Goblin _ => true
  | _ => false

/-- Is the cell empty (`Some(Empty)` match arms)? -/
def isEmptyCell (e : Entity) : Bool :=
  match e with
  | .Empty => true
  | _ => false

/-- The hit points of an enemy of the given faction flag, when the cell
holds one: the `(Some(Goblin(hp)), true) | (Some(Elf(hp)), false)` arms. -/
def enemyHp (elf : Bool) (e : Entity) : Option Nat :=
  match e, elf with
  | .Goblin hp, true => some hp
  | .Elf hp, false => some hp
  | _, _ => none

/-- The faction flag `find_closest_target` derives from the acting cell
(`Elf(_) => true`, otherwise goblin). -/
def elfFlag (e : Entity) : Bool :=
  match e with
  | .Elf _ => true
  | _ => false

/-- Does the cell hold a unit of the given faction (`true` = elves)? -/
def sideIs (w : Bool) (e : Entity) : Bool :=
  match e, w with
  | .Elf _, true => true
  | .Goblin _, false => true
  | _, _ => false

/-- The candidate list built by `Board::pick_action`'s `filter_map`.
Note the faithful rendering of the source's closure shadowing: the inner
`map(|position| &self.entities[position])` consumes the neighbour index, so
the tuple `Some((hp, position))` captures the *acting unit's own* position
`p`, not the neighbour's. -/
def Board.attack_candidates (b : Board) (p : Nat) (elf : Bool) : List (Nat × Nat) :=
  DIRECTIONS.filterMap (fun d =>
    match Position.to p b.width d with
    | some q => (enemyHp elf (b.entityAt q)).map (fun hp => (hp, p))
    | none => none)

/-- `can_move` flag of `Board::pick_action`: some neighbour is `Empty`. -/
def Board.can_move (b : Board) (p : Nat) : Bool :=
  DIRECTIONS.any (fun d =>
    match Position.to p b.width d with
    | some q => isEmptyCell (b.entityAt q)
    | none => false)

/-- `Board::pick_action`: wait when the cell holds no unit (it died before
its turn), otherwise attack the minimal-hp candidate when one exists, else
move when possible. -/
def Board.pick_action (b : Board) (p : Nat) : Action :=
  match b.entityAt p with
  | .Elf _ =>
    match minByFirst (fun c => c.1) (b.attack_candidates p true), b.can_move p with
    | some c, _ => .Attack c.2
    | none, true => .Move
    | none, false => .Wait
  | .Goblin _ =>
    match minByFirst (fun c => c.1) (b.attack_candidates p false), b.can_move p with
    | some c, _ => .Attack c.2
    | none, true => .Move
    | none, false => .Wait
  | _ => .Wait

/-- `Board::calculate_turn_order`: positions of living units in index
(reading) order. -/
def Board.calculate_turn_order (b : Board) : List Nat :=
  (List.range b.entities.length).filter (fun i => isUnit (b.entityAt i))

/-- `Board::move_to`: `Vec::swap` of two cells. -/
def Board.move_to (b : Board) (old new : Nat) : Board :=
  { b with entities := (b.entities.set old (b.entityAt new)).set new (b.entityAt old) }

/-- `Board::remaining_hp`: total hit points of all living units. -/
def Board.remaining_hp (b : Board) : Nat :=
  (b.entities.filterMap (fun e =>
    match e with
    | .Elf hp => some hp
    | .Goblin hp => some hp
    | _ => none)).sum

/-- Pointwise update of the pathfinding map, `pathfinding[position] = distance`. -/
def setPath (a : Nat → Nat) (p d : Nat) : Nat → Nat :=
  fun q => if q = p then d else a q

/-- `Board::calculate_path`, fuel-indexed: write `d` at `p`, then for each
direction in order recurse into an `Empty` neighbour whose current value
exceeds `d + 1`.  The source recursion is unbounded; fuel 256 always
suffices (proved below as `calculate_path_go_fuel_eq`). -/
def Board.calculate_path_go (b : Board) : Nat → Nat → Nat → (Nat → Nat) → (Nat → Nat)
  | 0, _, _, a => a
  | fuel + 1, p, d, a =>
    DIRECTIONS.foldl (fun a dir =>
      match Position.to p b.width dir with
      | some q =>
        match b.entityAt q with
        | .Empty => if d + 1 < a q then b.calculate_path_go fuel q (d + 1) a else a
        | _ => a
      | none => a) (setPath a p d)

/-- `Board::update_paths`: reset every cell to `UNREACHABLE` and flood from
`p` with distance 0. -/
def Board.update_paths (b : Board) (p : Nat) : Nat → Nat :=
  b.calculate_path_go 256 p 0 (fun _ => UNREACHABLE)

inductive Target where
  | Found : Nat → Target
  | NotFound : Nat → Bool → Target
  | Unreachable : Target
  deriving DecidableEq, Repr

/-- Enemy positions in index (reading) order, the `enumerate().filter_map`
of `Board::find_closest_target`. -/
def Board.enemy_positions (b : Board) (elf : Bool) : List Nat :=
  (List.range b.entities.length).filter (fun i => (enemyHp elf (b.entityAt i)).isSome)

/-- The in-range candidate cells with their flood distances, enumerated
enemy by enemy (index order) and direction by direction, exactly as the
source's `flat_map`. -/
def Board.target_candidates (b : Board) (elf : Bool) (pf : Nat → Nat) : List (Nat × Nat) :=
  (b.enemy_positions elf).flatMap (fun i =>
    DIRECTIONS.filterMap (fun d =>
      match Position.to i b.width d with
      | some q => if isEmptyCell (b.entityAt q) then some (q, pf q) else none
      | none => none))

/-- `Board::find_closest_target`.  The source panics when `p` holds no
unit; the embedding treats that case as the goblin flag (never reached). -/
def Board.find_closest_target (b : Board) (p : Nat) (pf : Nat → Nat) : Target :=
  let elf := elfFlag (b.entityAt p)
  match minByFirst (fun c => c.2) (b.target_candidates elf pf) with
  | none => .NotFound b.remaining_hp elf
  | some c => if c.2 = UNREACHABLE then .Unreachable else .Found c.1

/-- `Board::find_path_to_target`, fuel-indexed: walk back from the chosen
in-range cell along minimal flood values until a neighbour has value 0, and
return that last cell (the step to take).  The `min_by_key(...).unwrap()`
cannot fail: `South` always yields a neighbour. -/
def Board.find_path_go (b : Board) : Nat → Nat → (Nat → Nat) → Nat
  | 0, target, _ => target
  | fuel + 1, target, pf =>
    match minByFirst (fun c => c.2)
        (DIRECTIONS.filterMap (fun d =>
          (Position.to target b.width d).map (fun q => (q, pf q)))) with
    | none => target
    | some c => if c.2 = 0 then target else b.find_path_go fuel c.1 pf

def Board.find_path_to_target (b : Board) (target : Nat) (pf : Nat → Nat) : Nat :=
  b.find_path_go 256 target pf

/-- One unit's micro-turn, the body of the inner `for` loop of
`Board::simulate`: either the updated board, or the halt payload
`(remaining hp, elf victory)` carried by `break 'outer`. -/
def Board.processUnit (b : Board) (p : Nat) : Board ⊕ (Nat × Bool) :=
  match b.pick_action p with
  | .Wait => .inl b
  | .Attack t => .inl (b.attack t)
  | .Move =>
    let pf := b.update_paths p
    match b.find_closest_target p pf with
    | .Found t => .inl (b.move_to p (b.find_path_to_target t pf))
    | .Unreachable => .inl b
    | .NotFound hp e => .inr (hp, e)

/-- The inner `for` loop of `Board::simulate` over a turn-order list. -/
def Board.runTurns : Board → List Nat → Board ⊕ (Nat × Bool)
  | b, [] => .inl b
  | b, p :: rest =>
    match b.processUnit p with
    | .inl b2 => b2.runTurns rest
    | .inr r => .inr r

/-- The outer `loop` of `Board::simulate`, fuel-indexed (the source loop
can genuinely diverge; `none` means the round budget ran out).  On a
mid-round halt the current `round` counter is returned un-incremented. -/
def Board.simulateLoop : Board → Nat → Nat → Option (Nat × Nat × Bool)
  | _, _, 0 => none
  | b, round, fuel + 1 =>
    match b.runTurns b.calculate_turn_order with
    | .inr r => some (round, r.1, r.2)
    | .inl b2 => b2.simulateLoop (round + 1) fuel

/-- `Board::simulate`, returning `(rounds, hp, elf_victory)`. -/
def Board.simulate (b : Board) (fuel : Nat) : Option (Nat × Nat × Bool) :=
  b.simulateLoop 0 fuel

/-- Character classification of `FromStr for Board`'s validation pass. -/
def validChar (c : Char) : Bool :=
  c = '.' || c = '#' || c = 'G' || c = 'E' || c = '\n'

/-- The `filter_map` building the entity vector: newlines are dropped,
units start at `HP`. -/
def entityOfChar (c : Char) : Option Entity :=
  if c = '.' then some .Empty
  else if c = '#' then some .Wall
  else if c = 'G' then some (.Goblin HP)
  else if c = 'E' then some (.Elf HP)
  else none

/-- `impl FromStr for Board`: width is the index of the first newline (the
whole length when there is none); the only rejection is an invalid
character; no rectangularity check is performed. -/
def Board.from_str (s : List Char) : Except String Board :=
  let width :=
    match s.findIdx? (fun c => c = '\n') with
    | some i => i
    | none => s.length
  match s.find? (fun c => ! validChar c) with
  | some _ => .error "invalid character"
  | none => .ok { entities := s.filterMap entityOfChar, width := width }

/-- Specification-side reachability: `PathN b s x k` holds when there is a
walk of `k` steps from `s` to `x` whose every stepped-onto cell is `Empty`
(the cells a flood from `s` may traverse). -/
inductive PathN (b : Board) (s : Nat) : Nat → Nat → Prop where
  | refl : PathN b s s 0
  | step {y q k : Nat} : PathN b s y k → q ∈ b.nbrs y →
      b.entityAt q = .Empty → PathN b s q (k + 1)

/-- Entity rows from an ASCII map (newlines dropped), as the parser builds them. -/
def mkEntities (s : String) : List Entity := s.toList.filterMap entityOfChar

/-- `#E.G#` over a wall row: the elf must move one step east to reach the goblin. -/
def boardC1 : Board := ⟨mkEntities "#E.G#\n#####", 5⟩

/-- The same map after the elf's micro-turn: it moved next to the goblin. -/
def boardC1after : Board := ⟨mkEntities "#.EG#\n#####", 5⟩

/-- Two goblins, no elves; the first goblin (index 6) is walled in on all
four sides, the second (index 8) has an open cell to its south. -/
def boardC2 : Board := ⟨mkEntities "#####\n#G#G#\n###.#\n#####", 5⟩

/-- An elf and a goblin side by side. -/
def boardC9 : Board := ⟨mkEntities "#EG#\n####", 4⟩

/-- Elf at 12 between two diagonal goblins: the in-range cells 11 and 13
are both at flood distance 1; the source picks 13 (adjacent to the goblin
earlier in reading order), not the reading-order-first cell 11. -/
def boardC4 : Board := ⟨mkEntities "#####\n###G#\n#.E.#\n#G###\n#####", 5⟩

/-- A 9-wide arena where the elf at 11 must walk five steps to the chosen
in-range cell 38 next to the goblin at 47.  Both neighbours 12 and 20 of
the elf lie on shortest paths; the source's backward walk steps to 20. -/
def boardC3 : Board :=
  ⟨mkEntities "#########\n##E...#.#\n#...#...#\n#.#..#..#\n#...#.#.#\n#.G###.##\n#.......#\n#.......#\n#########", 9⟩

/-- `boardC9` after the elf's micro-turn: the elf attacked *itself*. -/
def boardC9run1 : Board :=
  ⟨[.Wall, .Elf 197, .Goblin 200, .Wall, .Wall, .Wall, .Wall, .Wall], 4⟩

/-- An elf and a goblin separated by a wall, each with open space next to
it: the in-range cells exist but are unreachable, so every unit waits and
the simulation never ends. -/
def boardC6loop : Board := ⟨mkEntities "#######\n#E.#.G#\n#######", 7⟩

/-- An elf with open space, and a goblin walled in so tightly that no open
cell is orthogonally adjacent to it: no in-range cell exists at all. -/
def boardC6win : Board := ⟨mkEntities "#######\n#E.#G##\n#######", 7⟩

/-- One cell of the 259-wide corridor board: a single open row (columns 2
to 257) with a goblin at column 1, wall-bordered, over a solid wall row. -/
def corridorEnt (i : Nat) : Entity :=
  if 259 ≤ i then .Wall
  else if i = 0 then .Wall
  else if i = 258 then .Wall
  else if i = 1 then .Goblin HP
  else .Empty

/-- A 259×2 corridor: the open stretch from the goblin at index 1 to the
far end at index 257 has length 256, beyond the 255 distance cap. -/
def corridor : Board := ⟨(List.range 518).map corridorEnt, 259⟩

/-- One direction's worth of the body of `calculate_path`. -/
def floodStep (b : Board) (fuel p d : Nat) (a : Nat → Nat) (dir : Direction) : Nat → Nat :=
  match Position.to p b.width dir with
  | some q =>
    match b.entityAt q with
    | .Empty => if d + 1 < a q then b.calculate_path_go fuel q (d + 1) a else a
    | _ => a
  | none => a

/-- The invariant of every cell freshly written by a flood call rooted at
`p` with base distance `d`: its value records a real path from `p`, stays
below `UNREACHABLE`, and its empty neighbours have been relaxed. -/
def WrittenOK (b : Board) (p d : Nat) (a : Nat → Nat) (x : Nat) : Prop :=
  ∃ j, 1 ≤ j ∧ a x = d + j ∧ a x ≤ 254 ∧ PathN b p x j ∧
    ∀ q ∈ b.nbrs x, b.entityAt q = .Empty → a q ≤ a x + 1

/-! ## Generic helpers: list access, first-minimum, neighbourhood -/

theorem getD_set_self {α : Type} {l : List α} {p : Nat} (h : p < l.length) (e d : α) :
    (l.set p e).getD p d = e := by
  simp [List.getD_eq_getElem?_getD, List.getElem?_set_self h]

theorem getD_set_ne {α : Type} {l : List α} {p q : Nat} (h : q ≠ p) (e d : α) :
    (l.set p e).getD q d = l.getD q d := by
  simp [List.getD_eq_getElem?_getD, List.getElem?_set_ne (Ne.symm h)]

theorem minStep_none {α : Type} {key : α → Nat} {x : α} : minStep key x none = some x := rfl

theorem minStep_some {α : Type} {key : α → Nat} {x y : α} :
    minStep key x (some y) = if key x ≤ key y then some x else some y := rfl

theorem minByFirst_eq_none_iff {α : Type} {key : α → Nat} {l : List α} :
    minByFirst key l = none ↔ l = [] := by
  cases l with
  | nil => simp [minByFirst]
  | cons x xs =>
    simp only [minByFirst]
    cases hm : minByFirst key xs with
    | none => simp [minStep_none]
    | some y => rw [minStep_some]; split_ifs <;> simp

theorem minByFirst_mem {α : Type} {key : α → Nat} :
    ∀ {l : List α} {x : α}, minByFirst key l = some x → x ∈ l := by
  intro l
  induction l with
  | nil => intro x h; simp [minByFirst] at h
  | cons a as ih =>
    intro x h
    simp only [minByFirst] at h
    cases hm : minByFirst key as with
    | none =>
      rw [hm, minStep_none] at h
      exact (Option.some.inj h) ▸ List.mem_cons_self a as
    | some y =>
      rw [hm, minStep_some] at h
      by_cases hk : key a ≤ key y
      · rw [if_pos hk] at h
        exact (Option.some.inj h) ▸ List.mem_cons_self a as
      · rw [if_neg hk] at h
        exact List.mem_cons_of_mem a (ih ((Option.some.inj h) ▸ hm))

theorem minByFirst_le {α : Type} {key : α → Nat} :
    ∀ {l : List α} {x : α}, minByFirst key l = some x → ∀ y ∈ l, key x ≤ key y := by
  intro l
  induction l with
  | nil => intro x h; simp [minByFirst] at h
  | cons a as ih =>
    intro x h y hy
    simp only [minByFirst] at h
    cases hm : minByFirst key as with
    | none =>
      rw [hm, minStep_none] at h
      obtain rfl : a = x := Option.some.inj h
      rcases List.mem_cons.1 hy with rfl | hy
      · exact le_refl _
      · rw [minByFirst_eq_none_iff] at hm; subst hm; simp at hy
    | some z =>
      rw [hm, minStep_some] at h
      by_cases hk : key a ≤ key z
      · rw [if_pos hk] at h
        obtain rfl : a = x := Option.some.inj h
        rcases List.mem_cons.1 hy with rfl | hy
        · exact le_refl _
        · exact le_trans hk (ih hm y hy)
      · rw [if_neg hk] at h
        obtain rfl : z = x := Option.some.inj h
        rcases List.mem_cons.1 hy with rfl | hy
        · exact le_of_lt (lt_of_not_le hk)
        · exact ih hm y hy

theorem mem_DIRECTIONS (d : Direction) : d ∈ DIRECTIONS := by
  cases d <;> simp [DIRECTIONS]

theorem mem_nbrs {b : Board} {p q : Nat} :
    q ∈ b.nbrs p ↔ ∃ d, Position.to p b.width d = some q := by
  simp only [Board.nbrs, List.mem_filterMap]
  constructor
  · rintro ⟨d, _, hd⟩; exact ⟨d, hd⟩
  · rintro ⟨d, hd⟩; exact ⟨d, mem_DIRECTIONS d, hd⟩

theorem south_mem_nbrs (b : Board) (p : Nat) : p + b.width ∈ b.nbrs p :=
  mem_nbrs.2 ⟨.South, rfl⟩

theorem nbrs_ne_nil (b : Board) (p : Nat) : b.nbrs p ≠ [] :=
  fun h => by simpa [h] using south_mem_nbrs b p

/-- Stepping west then east (or east then west, etc.) returns: the
neighbourhood relation is symmetric as soon as the width is positive. -/
theorem nbrs_symm {b : Board} (hw : 1 ≤ b.width) {p q : Nat} (h : q ∈ b.nbrs p) :
    p ∈ b.nbrs q := by
  rw [mem_nbrs] at h ⊢
  obtain ⟨d, hd⟩ := h
  cases d with
  | North =>
    rw [Position.to] at hd
    split at hd
    · next hle =>
      obtain rfl : p - b.width = q := Option.some.inj hd
      exact ⟨.South, by simp [Position.to]; omega⟩
    · exact absurd hd (by simp)
  | South =>
    obtain rfl : p + b.width = q := Option.some.inj hd
    exact ⟨.North, by simp [Position.to]⟩
  | West =>
    rw [Position.to] at hd
    split at hd
    · next hmod =>
      obtain rfl : p - 1 = q := Option.some.inj hd
      have h1 : p % b.width < b.width := Nat.mod_lt _ hw
      have h2 : 1 ≤ p % b.width := Nat.one_le_iff_ne_zero.mpr hmod
      have h3 : 1 ≤ p := le_trans h2 (Nat.mod_le p _)
      have h4 : p - 1 = b.width * (p / b.width) + (p % b.width - 1) := by
        have := Nat.div_add_mod p b.width
        omega
      have h5 : (p - 1) % b.width = p % b.width - 1 := by
        rw [h4, Nat.mul_add_mod]
        exact Nat.mod_eq_of_lt (by omega)
      refine ⟨.East, ?_⟩
      rw [Position.to]
      rw [if_pos (by omega)]
      congr 1
      omega
    · exact absurd hd (by simp)
  | East =>
    rw [Position.to] at hd
    split at hd
    · next hmod =>
      obtain rfl : p + 1 = q := Option.some.inj hd
      have h1 : p % b.width < b.width := Nat.mod_lt _ hw
      have h4 : p + 1 = b.width * (p / b.width) + (p % b.width + 1) := by
        have := Nat.div_add_mod p b.width
        omega
      have h5 : (p + 1) % b.width = p % b.width + 1 := by
        rw [h4, Nat.mul_add_mod]
        exact Nat.mod_eq_of_lt (by omega)
      refine ⟨.West, ?_⟩
      rw [Position.to]
      rw [if_pos (by omega)]
      congr 1
    · exact absurd hd (by simp)

theorem mem_turn_order {b : Board} {p : Nat} :
    p ∈ b.calculate_turn_order ↔ p < b.entities.length ∧ isUnit (b.entityAt p) = true := by
  simp [Board.calculate_turn_order, List.mem_filter, List.mem_range]

theorem turn_order_sorted (b : Board) : b.calculate_turn_order.Pairwise (· < ·) :=
  (List.pairwise_lt_range _).filter _

/-! ## Action selection lemmas -/

/-- Every attack candidate records the acting unit's own position (the
source's shadowed `position`). -/
theorem attack_candidates_snd {b : Board} {p : Nat} {elf : Bool} :
    ∀ c ∈ b.attack_candidates p elf, c.2 = p := by
  intro c hc
  simp only [Board.attack_candidates, List.mem_filterMap] at hc
  obtain ⟨d, _, hd⟩ := hc
  cases hto : Position.to p b.width d with
  | none => rw [hto] at hd; simp at hd
  | some q =>
    rw [hto] at hd
    dsimp only at hd
    cases he : enemyHp elf (b.entityAt q) with
    | none => rw [he] at hd; simp at hd
    | some hp =>
      rw [he] at hd
      have hc2 : (hp, p) = c := by simpa using hd
      rw [← hc2]

theorem attack_candidates_eq_nil {b : Board} {p : Nat} {elf : Bool}
    (h : ∀ q ∈ b.nbrs p, enemyHp elf (b.entityAt q) = none) :
    b.attack_candidates p elf = [] := by
  rw [Board.attack_candidates, List.filterMap_eq_nil_iff]
  intro d _
  cases hto : Position.to p b.width d with
  | none => rfl
  | some q =>
    have hq : q ∈ b.nbrs p := mem_nbrs.2 ⟨d, hto⟩
    simp [h q hq]

theorem can_move_iff {b : Board} {p : Nat} :
    b.can_move p = true ↔ ∃ q ∈ b.nbrs p, isEmptyCell (b.entityAt q) = true := by
  rw [Board.can_move, List.any_eq_true]
  constructor
  · rintro ⟨d, _, hd⟩
    cases hto : Position.to p b.width d with
    | none => rw [hto] at hd; simp at hd
    | some q =>
      rw [hto] at hd
      exact ⟨q, mem_nbrs.2 ⟨d, hto⟩, hd⟩
  · rintro ⟨q, hq, hempty⟩
    obtain ⟨d, hd⟩ := mem_nbrs.1 hq
    exact ⟨d, mem_DIRECTIONS d, by rw [hd]; exact hempty⟩

/-- A unit's chosen attack target is always its own cell. -/
theorem pick_action_attack_self {b : Board} {p t : Nat}
    (h : b.pick_action p = .Attack t) : t = p := by
  unfold Board.pick_action at h
  cases he : b.entityAt p <;> rw [he] at h
  case Empty => simp at h
  case Wall => simp at h
  case Elf hp =>
    cases hm : minByFirst (fun c => c.1) (b.attack_candidates p true) with
    | some c =>
      rw [hm] at h
      obtain rfl : c.2 = t := by
        cases hcm : b.can_move p <;> rw [hcm] at h <;> exact (Action.Attack.inj h)
      exact attack_candidates_snd _ (minByFirst_mem hm)
    | none =>
      rw [hm] at h
      cases hcm : b.can_move p <;> rw [hcm] at h <;> simp at h
  case Goblin hp =>
    cases hm : minByFirst (fun c => c.1) (b.attack_candidates p false) with
    | some c =>
      rw [hm] at h
      obtain rfl : c.2 = t := by
        cases hcm : b.can_move p <;> rw [hcm] at h <;> exact (Action.Attack.inj h)
      exact attack_candidates_snd _ (minByFirst_mem hm)
    | none =>
      rw [hm] at h
      cases hcm : b.can_move p <;> rw [hcm] at h <;> simp at h

/-- With no adjacent enemy the action is decided by `can_move` alone:
elf case. -/
theorem pick_action_elf_no_enemy {b : Board} {p : Nat} {hp : Nat}
    (he : b.entityAt p = .Elf hp)
    (hcand : b.attack_candidates p true = []) :
    b.pick_action p = (if b.can_move p then .Move else .Wait) := by
  unfold Board.pick_action
  rw [he, hcand]
  cases hcm : b.can_move p <;> simp [minByFirst]

theorem pick_action_goblin_no_enemy {b : Board} {p : Nat} {hp : Nat}
    (he : b.entityAt p = .Goblin hp)
    (hcand : b.attack_candidates p false = []) :
    b.pick_action p = (if b.can_move p then .Move else .Wait) := by
  unfold Board.pick_action
  rw [he, hcand]
  cases hcm : b.can_move p <;> simp [minByFirst]

/-! ## Target search lemmas -/

/-- Shape of the in-range candidate entries: an empty cell next to an
enemy, paired with its current flood value. -/
theorem mem_target_candidates {b : Board} {elf : Bool} {pf : Nat → Nat} {c : Nat × Nat} :
    c ∈ b.target_candidates elf pf →
      c.2 = pf c.1 ∧ isEmptyCell (b.entityAt c.1) = true := by
  intro hc
  simp only [Board.target_candidates, List.mem_flatMap, List.mem_filterMap] at hc
  obtain ⟨i, _, d, _, hd⟩ := hc
  cases hto : Position.to i b.width d with
  | none => rw [hto] at hd; simp at hd
  | some q =>
    rw [hto] at hd
    dsimp only at hd
    by_cases hemp : isEmptyCell (b.entityAt q) = true
    · rw [if_pos hemp] at hd
      obtain rfl := Option.some.inj hd
      exact ⟨rfl, hemp⟩
    · rw [if_neg hemp] at hd; simp at hd

theorem target_candidates_eq_nil {b : Board} {elf : Bool} {pf : Nat → Nat}
    (h : ∀ i ∈ b.enemy_positions elf, ∀ q ∈ b.nbrs i, isEmptyCell (b.entityAt q) = false) :
    b.target_candidates elf pf = [] := by
  rw [Board.target_candidates, List.flatMap_eq_nil_iff]
  intro i hi
  rw [List.filterMap_eq_nil_iff]
  intro d _
  cases hto : Position.to i b.width d with
  | none => rfl
  | some q => simp [hto, h i hi q (mem_nbrs.2 ⟨d, hto⟩)]

theorem find_closest_target_of_nil {b : Board} {p : Nat} {pf : Nat → Nat} {elf : Bool}
    (helf : elfFlag (b.entityAt p) = elf)
    (h : b.target_candidates elf pf = []) :
    b.find_closest_target p pf = .NotFound b.remaining_hp elf := by
  unfold Board.find_closest_target
  rw [helf]
  dsimp only
  rw [h]
  rfl

/-! ## The flood fill: basic shape -/

theorem setPath_self (a : Nat → Nat) (p d : Nat) : setPath a p d p = d := by
  simp [setPath]

theorem setPath_ne (a : Nat → Nat) (p d : Nat) {q : Nat} (h : q ≠ p) : setPath a p d q = a q := by
  simp [setPath, h]

theorem setPath_le (a : Nat → Nat) (p d : Nat) (h : d ≤ a p) : ∀ q, setPath a p d q ≤ a q := by
  intro q
  by_cases hq : q = p
  · subst hq; rw [setPath_self]; exact h
  · rw [setPath_ne a p d hq]

theorem calculate_path_go_zero (b : Board) (p d : Nat) (a : Nat → Nat) :
    b.calculate_path_go 0 p d a = a := rfl

theorem calculate_path_go_succ (b : Board) (fuel p d : Nat) (a : Nat → Nat) :
    b.calculate_path_go (fuel + 1) p d a =
      DIRECTIONS.foldl (floodStep b fuel p d) (setPath a p d) := rfl

theorem floodStep_eq_none {b : Board} {fuel p d : Nat} {a : Nat → Nat} {dir : Direction}
    (h : Position.to p b.width dir = none) :
    floodStep b fuel p d a dir = a := by
  unfold floodStep; rw [h]

theorem floodStep_eq_wall {b : Board} {fuel p d : Nat} {a : Nat → Nat} {dir : Direction} {q : Nat}
    (h : Position.to p b.width dir = some q) (he : b.entityAt q ≠ .Empty) :
    floodStep b fuel p d a dir = a := by
  unfold floodStep; rw [h]; dsimp only
  cases hq : b.entityAt q
  case Empty => exact absurd hq he
  all_goals rfl

theorem floodStep_eq_skip {b : Board} {fuel p d : Nat} {a : Nat → Nat} {dir : Direction} {q : Nat}
    (h : Position.to p b.width dir = some q) (he : b.entityAt q = .Empty)
    (hg : ¬ d + 1 < a q) :
    floodStep b fuel p d a dir = a := by
  unfold floodStep; rw [h]; dsimp only; rw [he]; dsimp only; rw [if_neg hg]

theorem floodStep_eq_rec {b : Board} {fuel p d : Nat} {a : Nat → Nat} {dir : Direction} {q : Nat}
    (h : Position.to p b.width dir = some q) (he : b.entityAt q = .Empty)
    (hg : d + 1 < a q) :
    floodStep b fuel p d a dir = b.calculate_path_go fuel q (d + 1) a := by
  unfold floodStep; rw [h]; dsimp only; rw [he]; dsimp only; rw [if_pos hg]

/-- Every direction step is either a no-op or a guarded recursive flood. -/
theorem floodStep_cases (b : Board) (fuel p d : Nat) (a : Nat → Nat) (dir : Direction) :
    floodStep b fuel p d a dir = a ∨
    ∃ q, Position.to p b.width dir = some q ∧ b.entityAt q = .Empty ∧ d + 1 < a q ∧
      floodStep b fuel p d a dir = b.calculate_path_go fuel q (d + 1) a := by
  cases hto : Position.to p b.width dir with
  | none => exact Or.inl (floodStep_eq_none hto)
  | some q =>
    by_cases he : b.entityAt q = .Empty
    · by_cases hg : d + 1 < a q
      · exact Or.inr ⟨q, rfl, he, hg, floodStep_eq_rec hto he hg⟩
      · exact Or.inl (floodStep_eq_skip hto he hg)
    · exact Or.inl (floodStep_eq_wall hto he)

/-! ## Fold combinators over direction lists -/

theorem foldl_le {f : (Nat → Nat) → Direction → (Nat → Nat)}
    (hdec : ∀ a dir q, f a dir q ≤ a q) :
    ∀ (l : List Direction) (a : Nat → Nat) (q : Nat), List.foldl f a l q ≤ a q := by
  intro l
  induction l with
  | nil => intro a q; exact le_refl _
  | cons dir rest ih =>
    intro a q
    exact le_trans (ih (f a dir) q) (hdec a dir q)

theorem foldl_inv {I : (Nat → Nat) → Prop} {f : (Nat → Nat) → Direction → (Nat → Nat)}
    (hstep : ∀ a dir, I a → I (f a dir)) :
    ∀ (l : List Direction) (a : Nat → Nat), I a → I (List.foldl f a l) := by
  intro l
  induction l with
  | nil => intro a h; exact h
  | cons dir rest ih => intro a h; exact ih (f a dir) (hstep a dir h)

/-- Fold transformers that only lower values, preserve an invariant, and
stamp a (decrease-stable) property on every cell they change: the whole
fold stamps every cell it changes. -/
theorem foldl_change {P : Nat → (Nat → Nat) → Prop} {I : (Nat → Nat) → Prop}
    {f : (Nat → Nat) → Direction → (Nat → Nat)}
    (hdec : ∀ a dir q, f a dir q ≤ a q)
    (hInv : ∀ a dir, I a → I (f a dir))
    (hP : ∀ a dir x, I a → f a dir x < a x → P x (f a dir))
    (hstable : ∀ x a a2, P x a → (∀ q, a2 q ≤ a q) → a2 x = a x → P x a2) :
    ∀ (l : List Direction) (a : Nat → Nat) (x : Nat),
      I a → List.foldl f a l x < a x → P x (List.foldl f a l) := by
  intro l
  induction l with
  | nil => intro a x _ h; exact absurd h (lt_irrefl _)
  | cons dir rest ih =>
    intro a x hInva h
    by_cases hx : List.foldl f (f a dir) rest x < (f a dir) x
    · exact ih (f a dir) x (hInv a dir hInva) hx
    · have h1 : List.foldl f (f a dir) rest x = (f a dir) x :=
        le_antisymm (foldl_le hdec rest _ x) (not_lt.1 hx)
      have h2 : (f a dir) x < a x := by
        have : List.foldl f a (dir :: rest) x = List.foldl f (f a dir) rest x := rfl
        rw [this, h1] at h
        exact h
      exact hstable x (f a dir) _ (hP a dir x hInva h2)
        (fun q => foldl_le hdec rest _ q) h1

/-! ## Flood fill: monotonicity, boundedness, write values -/

/-- Values never increase (provided the root write is itself a decrease). -/
theorem flood_le (b : Board) :
    ∀ (fuel p d : Nat) (a : Nat → Nat), d ≤ a p →
      ∀ q, b.calculate_path_go fuel p d a q ≤ a q := by
  intro fuel
  induction fuel with
  | zero => intro p d a _ q; exact le_refl _
  | succ fuel ih =>
    intro p d a hd q
    rw [calculate_path_go_succ]
    refine le_trans (foldl_le ?_ DIRECTIONS (setPath a p d) q) (setPath_le a p d hd q)
    intro a2 dir q2
    rcases floodStep_cases b fuel p d a2 dir with heq | ⟨r, _, _, hg, heq⟩
    · rw [heq]
    · rw [heq]; exact ih r (d + 1) a2 (le_of_lt hg) q2

/-- One `floodStep` never raises a value. -/
theorem floodStep_le (b : Board) (fuel p d : Nat) (a : Nat → Nat) (dir : Direction) :
    ∀ q, floodStep b fuel p d a dir q ≤ a q := by
  intro q
  rcases floodStep_cases b fuel p d a dir with heq | ⟨r, _, _, hg, heq⟩
  · rw [heq]
  · rw [heq]; exact flood_le b fuel r (d + 1) a (le_of_lt hg) q

/-- Values stay bounded by `UNREACHABLE`. -/
theorem flood_bounded (b : Board) :
    ∀ (fuel p d : Nat) (a : Nat → Nat), (∀ q, a q ≤ 255) → d ≤ 255 →
      ∀ q, b.calculate_path_go fuel p d a q ≤ 255 := by
  intro fuel
  induction fuel with
  | zero => intro p d a ha _ q; exact ha q
  | succ fuel ih =>
    intro p d a ha hd
    rw [calculate_path_go_succ]
    refine foldl_inv (I := fun a2 => ∀ q, a2 q ≤ 255) ?_ DIRECTIONS _ ?_
    · intro a2 dir ha2
      rcases floodStep_cases b fuel p d a2 dir with heq | ⟨r, _, _, hg, heq⟩
      · rw [heq]; exact ha2
      · rw [heq]
        exact ih r (d + 1) a2 ha2 (le_trans (le_of_lt hg) (ha2 r))
    · intro q
      by_cases hq : q = p
      · subst hq; rw [setPath_self]; exact hd
      · rw [setPath_ne a p d hq]; exact ha q

/-- Every cell a flood call changes receives at least the base distance. -/
theorem flood_writes_ge (b : Board) :
    ∀ (fuel p d : Nat) (a : Nat → Nat) (x : Nat),
      b.calculate_path_go fuel p d a x < a x → d ≤ b.calculate_path_go fuel p d a x := by
  intro fuel
  induction fuel with
  | zero => intro p d a x h; exact absurd h (lt_irrefl _)
  | succ fuel ih =>
    intro p d a x h
    rw [calculate_path_go_succ] at h ⊢
    by_cases hx : List.foldl (floodStep b fuel p d) (setPath a p d) DIRECTIONS x < setPath a p d x
    · have hst := foldl_change (P := fun x a2 => d + 1 ≤ a2 x) (I := fun _ => True)
        (f := floodStep b fuel p d)
        (fun a2 dir q => floodStep_le b fuel p d a2 dir q)
        (fun _ _ _ => trivial)
        ?_ ?_ DIRECTIONS (setPath a p d) x trivial hx
      · omega
      · intro a2 dir y _ hy
        rcases floodStep_cases b fuel p d a2 dir with heq | ⟨r, _, _, hg, heq⟩
        · rw [heq] at hy; exact absurd hy (lt_irrefl _)
        · rw [heq] at hy ⊢
          have := ih r (d + 1) a2 y hy
          omega
      · intro y a2 a3 hP _ heq; rw [heq]; exact hP
    · have h1 : List.foldl (floodStep b fuel p d) (setPath a p d) DIRECTIONS x = setPath a p d x :=
        le_antisymm (foldl_le (fun a2 dir q => floodStep_le b fuel p d a2 dir q) _ _ x) (not_lt.1 hx)
      rw [h1]
      rw [h1] at h
      by_cases hq : x = p
      · subst hq; rw [setPath_self]
      · rw [setPath_ne a p d hq] at h; exact absurd h (lt_irrefl _)

/-- The root keeps exactly its written distance. -/
theorem flood_root (b : Board) (fuel p d : Nat) (a : Nat → Nat) (hf : 0 < fuel) :
    b.calculate_path_go fuel p d a p = d := by
  obtain ⟨fuel, rfl⟩ : ∃ f, fuel = f + 1 := ⟨fuel - 1, by omega⟩
  rw [calculate_path_go_succ]
  refine foldl_inv (I := fun a2 => a2 p = d) ?_ DIRECTIONS (setPath a p d) (setPath_self a p d)
  intro a2 dir ha2
  have hle : floodStep b fuel p d a2 dir p ≤ a2 p := floodStep_le b fuel p d a2 dir p
  rcases lt_or_eq_of_le hle with hlt | heq
  · exfalso
    rcases floodStep_cases b fuel p d a2 dir with heq2 | ⟨r, _, _, hg, heq2⟩
    · rw [heq2] at hlt; exact absurd hlt (lt_irrefl _)
    · rw [heq2] at hlt
      have := flood_writes_ge b fuel r (d + 1) a2 p hlt
      omega
  · rw [heq, ha2]

/-! ## Flood fill: the main invariant -/

/-- Prefixing one edge onto a path. -/
theorem PathN_prepend {b : Board} {p q x j : Nat}
    (hq : q ∈ b.nbrs p) (he : b.entityAt q = .Empty)
    (hpath : PathN b q x j) : PathN b p x (j + 1) := by
  induction hpath with
  | refl => exact PathN.step PathN.refl hq he
  | step hp hnb hemp ih => exact PathN.step ih hnb hemp

theorem WrittenOK_mono {b : Board} {p d : Nat} {a a2 : Nat → Nat} {x : Nat}
    (hW : WrittenOK b p d a x) (hdec : ∀ q, a2 q ≤ a q) (hx : a2 x = a x) :
    WrittenOK b p d a2 x := by
  obtain ⟨j, hj, hval, hle, hpath, hrel⟩ := hW
  refine ⟨j, hj, hx ▸ hval, hx ▸ hle, hpath, fun q hq he => ?_⟩
  rw [hx]
  exact le_trans (hdec q) (hrel q hq he)

/-- A `floodStep` preserves boundedness. -/
theorem floodStep_bounded (b : Board) (fuel p d : Nat) (a : Nat → Nat) (dir : Direction)
    (ha : ∀ q, a q ≤ 255) : ∀ q, floodStep b fuel p d a dir q ≤ 255 := by
  rcases floodStep_cases b fuel p d a dir with heq | ⟨r, _, _, hg, heq⟩
  · rw [heq]; exact ha
  · rw [heq]
    exact flood_bounded b fuel r (d + 1) a ha (le_trans (le_of_lt hg) (ha r))

/-- After the fold has processed a direction leading to an empty cell, that
cell's value is at most `d + 1` (and later steps only lower it). -/
theorem foldl_relax_aux (b : Board) (fuel p d : Nat) (hfuel : 0 < fuel) :
    ∀ (l : List Direction) (a2 : Nat → Nat), (∀ y, a2 y ≤ 255) →
      ∀ dir ∈ l, ∀ q, Position.to p b.width dir = some q → b.entityAt q = .Empty →
        List.foldl (floodStep b fuel p d) a2 l q ≤ d + 1 := by
  intro l
  induction l with
  | nil => intro a2 _ dir hdir; simp at hdir
  | cons dir0 rest ih =>
    intro a2 ha2 dir hdir q hto he
    rcases List.mem_cons.1 hdir with rfl | hdir2
    · -- this very step relaxes `q`; the tail only lowers values
      have hstep : floodStep b fuel p d a2 dir q ≤ d + 1 := by
        by_cases hg : d + 1 < a2 q
        · rw [floodStep_eq_rec hto he hg]
          exact le_of_eq (flood_root b fuel q (d + 1) a2 hfuel)
        · calc floodStep b fuel p d a2 dir q ≤ a2 q := floodStep_le b fuel p d a2 dir q
            _ ≤ d + 1 := by omega
      calc List.foldl (floodStep b fuel p d) (floodStep b fuel p d a2 dir) rest q
          ≤ floodStep b fuel p d a2 dir q :=
            foldl_le (fun a3 dir2 y => floodStep_le b fuel p d a3 dir2 y) rest _ q
        _ ≤ d + 1 := hstep
    · exact ih (floodStep b fuel p d a2 dir0)
        (floodStep_bounded b fuel p d a2 dir0 ha2) dir hdir2 q hto he

/-- The heart of the flood-fill correctness proof: with enough fuel, every
cell the call changes satisfies `WrittenOK`, and every empty neighbour of
the root is relaxed to at most `d + 1`. -/
theorem flood_written (b : Board) :
    ∀ (fuel p d : Nat) (a : Nat → Nat), (∀ q, a q ≤ 255) → d ≤ 254 → 255 - d < fuel →
      (∀ x, b.calculate_path_go fuel p d a x < setPath a p d x →
        WrittenOK b p d (b.calculate_path_go fuel p d a) x) ∧
      (∀ q ∈ b.nbrs p, b.entityAt q = .Empty →
        b.calculate_path_go fuel p d a q ≤ d + 1) := by
  intro fuel
  induction fuel with
  | zero => intro p d a _ hd hf; omega
  | succ fuel ih =>
    intro p d a ha hd hf
    have hfuel : 0 < fuel := by omega
    have hstepP : ∀ (a2 : Nat → Nat) (dir : Direction) (x : Nat), (∀ y, a2 y ≤ 255) →
        floodStep b fuel p d a2 dir x < a2 x → WrittenOK b p d (floodStep b fuel p d a2 dir) x := by
      intro a2 dir x ha2 hy
      rcases floodStep_cases b fuel p d a2 dir with heq | ⟨r, hto, he, hg, heq⟩
      · rw [heq] at hy; exact absurd hy (lt_irrefl _)
      · rw [heq] at hy ⊢
        have hd1 : d + 1 ≤ 254 := by have := ha2 r; omega
        have hf1 : 255 - (d + 1) < fuel := by omega
        have ihsub := ih r (d + 1) a2 ha2 hd1 hf1
        by_cases hxr : x = r
        · subst hxr
          have hroot : b.calculate_path_go fuel x (d + 1) a2 x = d + 1 :=
            flood_root b fuel x (d + 1) a2 hfuel
          refine ⟨1, le_refl _, by rw [hroot], by omega,
            PathN.step PathN.refl (mem_nbrs.2 ⟨dir, hto⟩) he, ?_⟩
          intro q hq hqe
          rw [hroot]
          exact ihsub.2 q hq hqe
        · have hx2 : b.calculate_path_go fuel r (d + 1) a2 x < setPath a2 r (d + 1) x := by
            rw [setPath_ne a2 r (d + 1) hxr]; exact hy
          obtain ⟨j, hj, hval, hle, hpath, hrel⟩ := ihsub.1 x hx2
          refine ⟨j + 1, by omega, by rw [hval]; omega, hle,
            PathN_prepend (mem_nbrs.2 ⟨dir, hto⟩) he hpath, hrel⟩
    constructor
    · rw [calculate_path_go_succ]
      intro x hx
      refine foldl_change (P := fun y a2 => WrittenOK b p d a2 y) (I := fun a2 => ∀ y, a2 y ≤ 255)
        (fun a2 dir q => floodStep_le b fuel p d a2 dir q)
        (fun a2 dir ha2 => floodStep_bounded b fuel p d a2 dir ha2)
        (fun a2 dir y ha2 hy => hstepP a2 dir y ha2 hy)
        (fun y a2 a3 hP hdec heq => WrittenOK_mono hP hdec heq)
        DIRECTIONS (setPath a p d) x ?_ ?_
      · intro y
        by_cases hy : y = p
        · subst hy; rw [setPath_self]; omega
        · rw [setPath_ne a p d hy]; exact ha y
      · exact hx
    · intro q hq hqe
      obtain ⟨dir, hto⟩ := mem_nbrs.1 hq
      rw [calculate_path_go_succ]
      refine foldl_relax_aux b fuel p d hfuel DIRECTIONS (setPath a p d) ?_ dir
        (mem_DIRECTIONS dir) q hto hqe
      intro y
      by_cases hy : y = p
      · subst hy; rw [setPath_self]; omega
      · rw [setPath_ne a p d hy]; exact ha y

/-! ## Flood fill: characterisation of `update_paths` -/

theorem update_paths_root (b : Board) (s : Nat) : b.update_paths s s = 0 :=
  flood_root b 256 s 0 _ (by omega)

theorem update_paths_bounded (b : Board) (s : Nat) : ∀ x, b.update_paths s x ≤ 255 :=
  flood_bounded b 256 s 0 _ (fun _ => le_of_eq rfl) (by omega)

theorem update_paths_writtenOK (b : Board) (s : Nat) {x : Nat}
    (hx : x ≠ s) (hlt : b.update_paths s x < 255) :
    WrittenOK b s 0 (b.update_paths s) x := by
  have h := (flood_written b 256 s 0 (fun _ => UNREACHABLE) (fun _ => le_of_eq rfl) (by omega) (by omega)).1 x
  apply h
  rw [setPath_ne _ _ _ hx]
  exact hlt

/-- Exactness: a finite flood value is realised by an actual path. -/
theorem update_paths_exact (b : Board) (s : Nat) {x : Nat} (hlt : b.update_paths s x < 255) :
    PathN b s x (b.update_paths s x) := by
  by_cases hx : x = s
  · subst hx; rw [update_paths_root]; exact PathN.refl
  · obtain ⟨j, _, hval, _, hpath, _⟩ := update_paths_writtenOK b s hx hlt
    rw [hval]
    simpa using hpath

/-- Local consistency: a settled cell's empty neighbours are within one. -/
theorem update_paths_relax (b : Board) (s : Nat) {x : Nat} (hle : b.update_paths s x ≤ 254) :
    ∀ q ∈ b.nbrs x, b.entityAt q = .Empty →
      b.update_paths s q ≤ b.update_paths s x + 1 := by
  intro q hq he
  by_cases hx : x = s
  · subst hx
    rw [update_paths_root]
    exact (flood_written b 256 x 0 (fun _ => UNREACHABLE) (fun _ => le_of_eq rfl) (by omega) (by omega)).2 q hq he
  · have hlt : b.update_paths s x < 255 := by omega
    obtain ⟨j, _, _, _, _, hrel⟩ := update_paths_writtenOK b s hx hlt
    exact hrel q hq he

/-- Minimality: the flood value is a lower bound for every path length. -/
theorem update_paths_le (b : Board) (s : Nat) :
    ∀ {x k : Nat}, PathN b s x k → b.update_paths s x ≤ k := by
  intro x k hpath
  induction hpath with
  | refl => rw [update_paths_root]
  | step hp hq he ih =>
    rename_i y q k2
    by_cases hy : b.update_paths s y ≤ 254
    · exact le_trans (update_paths_relax b s hy q hq he) (by omega)
    · have h1 := update_paths_bounded b s q
      have h2 := update_paths_bounded b s y
      omega

theorem update_paths_eq_zero (b : Board) (s : Nat) {x : Nat}
    (h : b.update_paths s x = 0) : x = s := by
  by_contra hx
  obtain ⟨j, hj, hval, _, _, _⟩ := update_paths_writtenOK b s hx (by omega)
  omega

/-! ## Flood fill: fuel independence (termination of the recursion) -/

theorem calculate_path_go_fuel_eq (b : Board) :
    ∀ (f g p d : Nat) (a : Nat → Nat), (∀ q, a q ≤ 255) → d ≤ 254 →
      255 - d < f → 255 - d < g →
      b.calculate_path_go f p d a = b.calculate_path_go g p d a := by
  intro f
  induction f with
  | zero => intro g p d a _ hd hf _; omega
  | succ f ihf =>
    intro g p d a ha hd hf hg
    obtain ⟨g2, rfl⟩ : ∃ g2, g = g2 + 1 := ⟨g - 1, by omega⟩
    rw [calculate_path_go_succ, calculate_path_go_succ]
    have haux : ∀ (l : List Direction) (a2 : Nat → Nat), (∀ q, a2 q ≤ 255) →
        List.foldl (floodStep b f p d) a2 l = List.foldl (floodStep b g2 p d) a2 l := by
      intro l
      induction l with
      | nil => intro a2 _; rfl
      | cons dir rest ihl =>
        intro a2 ha2
        have hstep : floodStep b f p d a2 dir = floodStep b g2 p d a2 dir := by
          cases hto : Position.to p b.width dir with
          | none => rw [floodStep_eq_none hto, floodStep_eq_none hto]
          | some r =>
            by_cases he : b.entityAt r = .Empty
            · by_cases hgu : d + 1 < a2 r
              · rw [floodStep_eq_rec hto he hgu, floodStep_eq_rec hto he hgu]
                exact ihf g2 r (d + 1) a2 ha2 (by have := ha2 r; omega) (by omega) (by omega)
              · rw [floodStep_eq_skip hto he hgu, floodStep_eq_skip hto he hgu]
            · rw [floodStep_eq_wall hto he, floodStep_eq_wall hto he]
        show List.foldl _ (floodStep b f p d a2 dir) rest =
          List.foldl _ (floodStep b g2 p d a2 dir) rest
        rw [hstep]
        exact ihl (floodStep b g2 p d a2 dir) (floodStep_bounded b g2 p d a2 dir ha2)
    refine haux DIRECTIONS (setPath a p d) (fun q => ?_)
    by_cases hq : q = p
    · subst hq; rw [setPath_self]; omega
    · rw [setPath_ne a p d hq]; exact ha q

/-- Fuel 256 is canonical: any larger fuel yields the same flood. -/
theorem update_paths_fuel_eq (b : Board) (s : Nat) {f : Nat} (hf : 255 < f) :
    b.calculate_path_go f s 0 (fun _ => UNREACHABLE) = b.update_paths s :=
  calculate_path_go_fuel_eq b f 256 s 0 _ (fun _ => le_of_eq rfl) (by omega) (by omega) (by omega)

/-! ## The backward walk `find_path_to_target` -/

theorem mem_walk_candidates {b : Board} {t : Nat} {pf : Nat → Nat} {c : Nat × Nat}
    (hc : c ∈ DIRECTIONS.filterMap (fun d =>
      (Position.to t b.width d).map (fun q => (q, pf q)))) :
    c.1 ∈ b.nbrs t ∧ c.2 = pf c.1 := by
  simp only [List.mem_filterMap] at hc
  obtain ⟨d, _, hd⟩ := hc
  cases hto : Position.to t b.width d with
  | none => rw [hto] at hd; simp at hd
  | some q =>
    rw [hto] at hd
    have hqc : (q, pf q) = c := by simpa using hd
    rw [← hqc]
    exact ⟨mem_nbrs.2 ⟨d, hto⟩, rfl⟩

theorem walk_candidates_mem {b : Board} {t y : Nat} (pf : Nat → Nat) (hy : y ∈ b.nbrs t) :
    (y, pf y) ∈ DIRECTIONS.filterMap (fun d =>
      (Position.to t b.width d).map (fun q => (q, pf q))) := by
  obtain ⟨d, hd⟩ := mem_nbrs.1 hy
  exact List.mem_filterMap.2 ⟨d, mem_DIRECTIONS d, by rw [hd]; rfl⟩

theorem find_path_go_succ (b : Board) (fuel t : Nat) (pf : Nat → Nat) :
    b.find_path_go (fuel + 1) t pf =
      (match minByFirst (fun c => c.2) (DIRECTIONS.filterMap (fun d =>
          (Position.to t b.width d).map (fun q => (q, pf q)))) with
        | none => t
        | some c => if c.2 = 0 then t else b.find_path_go fuel c.1 pf) := rfl

/-- The backward walk from a reachable target always lands on an `Empty`
cell: flood values strictly decrease along it, and every finite positive
flood value marks an empty cell. -/
theorem find_path_go_empty {b : Board} (hw : 1 ≤ b.width) (s : Nat) :
    ∀ (fuel t : Nat), 1 ≤ b.update_paths s t → b.update_paths s t ≤ 254 →
      b.update_paths s t < fuel →
      b.entityAt (b.find_path_go fuel t (b.update_paths s)) = .Empty := by
  intro fuel
  induction fuel with
  | zero => intro t _ _ h; omega
  | succ fuel ih =>
    intro t h1 h2 h3
    have hpath : PathN b s t (b.update_paths s t) := update_paths_exact b s (by omega)
    rw [find_path_go_succ]
    generalize hA : b.update_paths s t = k at h1 h2 h3 hpath
    cases hpath with
    | refl => omega
    | step hp hnb hemp =>
      rename_i y k2
      have hyle : b.update_paths s y ≤ k2 := update_paths_le b s hp
      have hynb : y ∈ b.nbrs t := nbrs_symm hw hnb
      have hmem := walk_candidates_mem (b.update_paths s) hynb
      cases hm : minByFirst (fun c => c.2) (DIRECTIONS.filterMap (fun d =>
          (Position.to t b.width d).map (fun q => (q, b.update_paths s q)))) with
      | none =>
        rw [minByFirst_eq_none_iff] at hm
        rw [hm] at hmem
        simp at hmem
      | some c =>
        dsimp only
        have hcle : c.2 ≤ b.update_paths s y := minByFirst_le hm _ hmem
        obtain ⟨hcnb, hcval⟩ := mem_walk_candidates (minByFirst_mem hm)
        by_cases hc0 : c.2 = 0
        · rw [if_pos hc0]; exact hemp
        · rw [if_neg hc0]
          apply ih
          · rw [← hcval]; omega
          · rw [← hcval]; omega
          · rw [← hcval]; omega

theorem find_path_to_target_empty {b : Board} (hw : 1 ≤ b.width) (s t : Nat)
    (h1 : 1 ≤ b.update_paths s t) (h2 : b.update_paths s t ≤ 254) :
    b.entityAt (b.find_path_to_target t (b.update_paths s)) = .Empty :=
  find_path_go_empty hw s 256 t h1 h2 (by omega)

/-! ## Micro-turn footprint -/

theorem attack_entityAt_ne {b : Board} {p q : Nat} (h : q ≠ p) :
    (b.attack p).entityAt q = b.entityAt q := by
  unfold Board.attack
  cases he : b.entityAt p <;> dsimp only
  case Goblin hp =>
    split_ifs <;> (simp only [Board.entityAt]; exact getD_set_ne h _ _)
  case Elf hp =>
    split_ifs <;> (simp only [Board.entityAt]; exact getD_set_ne h _ _)

theorem move_to_entityAt_ne {b : Board} {old new q : Nat} (h1 : q ≠ old) (h2 : q ≠ new) :
    (b.move_to old new).entityAt q = b.entityAt q := by
  simp only [Board.move_to, Board.entityAt]
  rw [getD_set_ne h2, getD_set_ne h1]

theorem pick_action_move_unit {b : Board} {p : Nat} (h : b.pick_action p = .Move) :
    isUnit (b.entityAt p) = true := by
  unfold Board.pick_action at h
  cases he : b.entityAt p <;> rw [he] at h
  case Empty => simp at h
  case Wall => simp at h
  all_goals rfl

theorem find_closest_found {b : Board} {p t : Nat} {pf : Nat → Nat}
    (h : b.find_closest_target p pf = .Found t) :
    pf t ≠ 255 ∧ isEmptyCell (b.entityAt t) = true := by
  unfold Board.find_closest_target at h
  dsimp only at h
  cases hm : minByFirst (fun c => c.2)
      (b.target_candidates (elfFlag (b.entityAt p)) pf) with
  | none => rw [hm] at h; simp at h
  | some c =>
    rw [hm] at h
    dsimp only at h
    by_cases hc : c.2 = UNREACHABLE
    · rw [if_pos hc] at h; simp at h
    · rw [if_neg hc] at h
      obtain rfl : c.1 = t := Target.Found.inj h
      obtain ⟨hval, hemp⟩ := mem_target_candidates (minByFirst_mem hm)
      exact ⟨by rw [← hval]; exact hc, hemp⟩

/-- A micro-turn only ever modifies the acting cell and one empty cell:
every other non-empty cell is untouched. -/
theorem processUnit_untouched {b : Board} (hw : 1 ≤ b.width) {p q : Nat} {b2 : Board}
    (hq : q ≠ p) (hne : b.entityAt q ≠ .Empty)
    (h : b.processUnit p = .inl b2) : b2.entityAt q = b.entityAt q := by
  unfold Board.processUnit at h
  cases hpa : b.pick_action p with
  | Wait =>
    rw [hpa] at h
    obtain rfl : b = b2 := Sum.inl.inj h
    rfl
  | Attack t =>
    rw [hpa] at h
    obtain rfl : t = p := pick_action_attack_self hpa
    obtain rfl : b.attack t = b2 := Sum.inl.inj h
    exact attack_entityAt_ne hq
  | Move =>
    rw [hpa] at h
    dsimp only at h
    cases hf : b.find_closest_target p (b.update_paths p) with
    | Unreachable =>
      rw [hf] at h
      obtain rfl : b = b2 := Sum.inl.inj h
      rfl
    | NotFound hp e => rw [hf] at h; simp at h
    | Found t =>
      rw [hf] at h
      obtain rfl : b.move_to p (b.find_path_to_target t (b.update_paths p)) = b2 :=
        Sum.inl.inj h
      obtain ⟨hne255, hemp⟩ := find_closest_found hf
      have hble := update_paths_bounded b p t
      have h2 : b.update_paths p t ≤ 254 := by omega
      have h1 : 1 ≤ b.update_paths p t := by
        rcases Nat.eq_zero_or_pos (b.update_paths p t) with h0 | h0
        · exfalso
          obtain rfl : t = p := update_paths_eq_zero b p h0
          have hu := pick_action_move_unit hpa
          cases hE : b.entityAt t <;> rw [hE] at hu hemp <;> simp [isUnit, isEmptyCell] at hu hemp
        · exact h0
      have hs : b.entityAt (b.find_path_to_target t (b.update_paths p)) = .Empty :=
        find_path_to_target_empty hw p t h1 h2
      refine move_to_entityAt_ne hq ?_
      intro hqs
      rw [hqs] at hne
      exact hne hs

/-! ## Round processing preserves un-processed units -/

theorem runTurns_nil (b : Board) : b.runTurns [] = .inl b := rfl

theorem runTurns_cons (b : Board) (p : Nat) (rest : List Nat) :
    b.runTurns (p :: rest) =
      (match b.processUnit p with
        | .inl b2 => b2.runTurns rest
        | .inr r => .inr r) := rfl

/-- Processing a list of positions that avoids a set of unit cells leaves
those cells exactly as they were. -/
theorem runTurns_preserves {p0 : Nat} :
    ∀ (l : List Nat) (b b2 : Board), 1 ≤ b.width →
      (∀ q ∈ [p0], isUnit (b.entityAt q) = true) →
      (∀ q ∈ [p0], q ∉ l) →
      b.runTurns l = .inl b2 →
      b2.entityAt p0 = b.entityAt p0 := by
  intro l
  induction l with
  | nil =>
    intro b b2 _ _ _ h
    obtain rfl : b = b2 := Sum.inl.inj h
    rfl
  | cons p rest ih =>
    intro b b2 hw hS hdisj h
    rw [runTurns_cons] at h
    cases hpu : b.processUnit p with
    | inr r => rw [hpu] at h; simp at h
    | inl b1 =>
      rw [hpu] at h
      dsimp only at h
      have hqp : p0 ≠ p := by
        intro hq
        exact (hdisj p0 (by simp)) (by rw [hq]; exact List.mem_cons_self p rest)
      have hne : b.entityAt p0 ≠ .Empty := by
        intro hE
        have := hS p0 (by simp)
        rw [hE] at this
        simp [isUnit] at this
      have h0 : b1.entityAt p0 = b.entityAt p0 := processUnit_untouched hw hqp hne hpu
      have hw1 : 1 ≤ b1.width := by
        have : b1.width = b.width := by
          unfold Board.processUnit at hpu
          cases hpa : b.pick_action p <;> rw [hpa] at hpu
          · exact (Sum.inl.inj hpu) ▸ rfl
          · next t =>
            obtain rfl : b.attack t = b1 := Sum.inl.inj hpu
            unfold Board.attack
            cases b.entityAt t <;> dsimp only
            case Goblin => split_ifs <;> rfl
            case Elf => split_ifs <;> rfl
          · dsimp only at hpu
            cases hf : b.find_closest_target p (b.update_paths p) <;> rw [hf] at hpu
            · next t => exact (Sum.inl.inj hpu) ▸ rfl
            · simp at hpu
            · exact (Sum.inl.inj hpu) ▸ rfl
        omega
      have h1 : b2.entityAt p0 = b1.entityAt p0 := by
        refine ih b1 b2 hw1 ?_ ?_ h
        · intro q hq
          rcases List.mem_singleton.1 hq with rfl
          rw [h0]
          exact hS q (by simp)
        · intro q hq
          rcases List.mem_singleton.1 hq with rfl
          exact fun hmem => (hdisj q (by simp)) (List.mem_cons_of_mem p hmem)
      rw [h1, h0]

/-! ## Faction bookkeeping -/

theorem isEmptyCell_iff {e : Entity} : isEmptyCell e = true ↔ e = .Empty := by
  cases e <;> simp [isEmptyCell]

theorem sideIs_elfFlag {w : Bool} {e : Entity} (h : sideIs w e = true) :
    elfFlag e = w ∧ isUnit e = true := by
  cases e <;> cases w <;> simp [sideIs, elfFlag, isUnit] at h ⊢

theorem isUnit_sideIs {e : Entity} (h : isUnit e = true) :
    sideIs (elfFlag e) e = true := by
  cases e <;> simp [isUnit, sideIs, elfFlag] at h ⊢

theorem enemyHp_none_iff {f : Bool} {e : Entity} :
    enemyHp f e = none ↔ sideIs (!f) e = false := by
  cases e <;> cases f <;> simp [enemyHp, sideIs]

theorem enemyHp_isSome_iff {f : Bool} {e : Entity} :
    (enemyHp f e).isSome = true ↔ sideIs (!f) e = true := by
  cases e <;> cases f <;> simp [enemyHp, sideIs]

theorem entityAt_lt_length {b : Board} {q : Nat} (h : b.entityAt q ≠ .Wall) :
    q < b.entities.length := by
  by_contra hq
  apply h
  unfold Board.entityAt
  rw [List.getD_eq_getElem?_getD, List.getElem?_eq_none (by omega)]
  rfl

theorem pick_action_no_enemy {b : Board} {p : Nat} (hu : isUnit (b.entityAt p) = true)
    (hcand : b.attack_candidates p (elfFlag (b.entityAt p)) = []) :
    b.pick_action p = (if b.can_move p then .Move else .Wait) := by
  cases he : b.entityAt p <;> rw [he] at hu hcand
  case Empty => simp [isUnit] at hu
  case Wall => simp [isUnit] at hu
  case Elf hp => exact pick_action_elf_no_enemy he hcand
  case Goblin hp => exact pick_action_goblin_no_enemy he hcand

theorem processUnit_of_wait {b : Board} {p : Nat} (h : b.pick_action p = .Wait) :
    b.processUnit p = .inl b := by
  unfold Board.processUnit
  rw [h]

theorem processUnit_notfound {b : Board} {p : Nat} (hmove : b.pick_action p = .Move)
    (hnil : b.target_candidates (elfFlag (b.entityAt p)) (b.update_paths p) = []) :
    b.processUnit p = .inr (b.remaining_hp, elfFlag (b.entityAt p)) := by
  unfold Board.processUnit
  rw [hmove]
  dsimp only
  rw [find_closest_target_of_nil rfl hnil]

/-! ## Claim C5: turn order and single action per unit -/

/-- Claim C5 (confirmed).  The turn order is computed once per round as the
reading-order (index-sorted) list of living-unit positions; and while the
round is processed, every cell whose entry has not yet been reached still
holds exactly the unit that stood there at round start — so the unit
processed at each entry is the round-start unit: none acts twice via its
entry, and no living un-processed unit is skipped.  (Because every attack
in this code targets the attacker's own cell, a cell is never vacated
before its own entry is processed, which is what makes this discipline
hold.) -/
theorem C5_round_turn_discipline (b : Board) (hw : 1 ≤ b.width) :
    b.calculate_turn_order.Pairwise (· < ·) ∧
    (∀ q, q ∈ b.calculate_turn_order ↔
      q < b.entities.length ∧ isUnit (b.entityAt q) = true) ∧
    (∀ (l1 l2 : List Nat) (p : Nat) (b2 : Board),
      b.calculate_turn_order = l1 ++ p :: l2 → b.runTurns l1 = .inl b2 →
      ∀ q ∈ p :: l2, b2.entityAt q = b.entityAt q) := by
  refine ⟨turn_order_sorted b, fun q => mem_turn_order, ?_⟩
  intro l1 l2 p b2 hsplit hrun q hq
  have hmem : q ∈ b.calculate_turn_order := by
    rw [hsplit]; exact List.mem_append_right _ hq
  have hunit := (mem_turn_order.1 hmem).2
  have hnotin : q ∉ l1 := by
    intro hql1
    have hpair := turn_order_sorted b
    rw [hsplit] at hpair
    exact lt_irrefl q ((List.pairwise_append.1 hpair).2.2 q hql1 q hq)
  exact runTurns_preserves l1 b b2 hw
    (fun r hr => by rcases List.mem_singleton.1 hr with rfl; exact hunit)
    (fun r hr => by rcases List.mem_singleton.1 hr with rfl; exact hnotin) hrun

/-- Witness for C5 at a concrete board: after the first entry of the turn
order is processed, the second entry still holds its original goblin. -/
theorem C5_round_turn_discipline_witness :
    boardC9run1.entityAt 2 = boardC9.entityAt 2 :=
  (C5_round_turn_discipline boardC9 (by decide)).2.2 [1] [] 2 boardC9run1
    (by decide) (by decide) 2 (by simp)

/-! ## Claim C6: fully walled-off enemies -/

theorem simulateLoop_succ (b : Board) (round fuel : Nat) :
    b.simulateLoop round (fuel + 1) =
      (match b.runTurns b.calculate_turn_order with
        | .inr r => some (round, r.1, r.2)
        | .inl b2 => b2.simulateLoop (round + 1) fuel) := rfl

/-- When every unit of faction `w` is sealed off (no empty neighbour, no
enemy neighbour), processing the turn order halts at the first unit of the
other faction that has an empty neighbour, yielding the total remaining hp
and that faction's flag; everyone before it waits and the board never
changes. -/
theorem runTurns_walled {b : Board} {w : Bool} (hw : 1 ≤ b.width)
    (hwall : ∀ i, i < b.entities.length → sideIs w (b.entityAt i) = true →
      ∀ q ∈ b.nbrs i, b.entityAt q ≠ .Empty ∧ sideIs (!w) (b.entityAt q) = false) :
    ∀ (l : List Nat), (∀ q ∈ l, q ∈ b.calculate_turn_order) →
      (∃ p ∈ l, sideIs (!w) (b.entityAt p) = true ∧ ∃ q ∈ b.nbrs p, b.entityAt q = .Empty) →
      b.runTurns l = .inr (b.remaining_hp, !w) := by
  intro l
  induction l with
  | nil => rintro _ ⟨p, hp, _⟩; simp at hp
  | cons p rest ih =>
    rintro hsub hbreak
    have hpmem := hsub p (List.mem_cons_self p rest)
    have hpunit := (mem_turn_order.1 hpmem).2
    have hplen := (mem_turn_order.1 hpmem).1
    have hself := isUnit_sideIs hpunit
    have henemy_nbr : sideIs (!w) (b.entityAt p) = true →
        ∀ q ∈ b.nbrs p, sideIs w (b.entityAt q) = false := by
      intro hside q hq
      by_contra hqw
      rw [Bool.not_eq_false] at hqw
      have hqlen : q < b.entities.length := entityAt_lt_length (by
        intro hW; rw [hW] at hqw; cases w <;> simp [sideIs] at hqw)
      have hfls := (hwall q hqlen hqw p (nbrs_symm hw hq)).2
      rw [hfls] at hside
      simp at hside
    by_cases hbp : sideIs (!w) (b.entityAt p) = true ∧ ∃ q ∈ b.nbrs p, b.entityAt q = .Empty
    · obtain ⟨hside, q0, hq0, hq0e⟩ := hbp
      have helf : elfFlag (b.entityAt p) = !w := (sideIs_elfFlag hside).1
      have hcand : b.attack_candidates p (elfFlag (b.entityAt p)) = [] := by
        apply attack_candidates_eq_nil
        intro q hq
        rw [helf, enemyHp_none_iff, Bool.not_not]
        exact henemy_nbr hside q hq
      have hmove : b.pick_action p = .Move := by
        rw [pick_action_no_enemy hpunit hcand]
        rw [if_pos (can_move_iff.2 ⟨q0, hq0, isEmptyCell_iff.2 hq0e⟩)]
      have htc : b.target_candidates (elfFlag (b.entityAt p)) (b.update_paths p) = [] := by
        apply target_candidates_eq_nil
        intro i hi q hq
        have hi0 : i ∈ List.range b.entities.length ∧
            (enemyHp (elfFlag (b.entityAt p)) (b.entityAt i)).isSome = true := by
          simpa [Board.enemy_positions, List.mem_filter] using hi
        have hilen : i < b.entities.length := List.mem_range.1 hi0.1
        have hi2 := hi0.2
        rw [helf, enemyHp_isSome_iff, Bool.not_not] at hi2
        have hne := (hwall i hilen hi2 q hq).1
        cases hE : b.entityAt q
        case Empty => exact absurd hE hne
        all_goals rfl
      rw [runTurns_cons, processUnit_notfound hmove htc]
      dsimp only
      rw [helf]
    · have hfw : elfFlag (b.entityAt p) = w ∨ elfFlag (b.entityAt p) = !w := by
        cases w <;> cases hE : elfFlag (b.entityAt p) <;> simp
      have hwait : b.pick_action p = .Wait := by
        have hnomove : ∀ q ∈ b.nbrs p, b.entityAt q ≠ .Empty := by
          rcases hfw with hpw | hpw
          · intro q hq
            exact (hwall p hplen (by rw [← hpw]; exact hself) q hq).1
          · intro q hq hE
            exact hbp ⟨by rw [← hpw]; exact hself, q, hq, hE⟩
        have hcand : b.attack_candidates p (elfFlag (b.entityAt p)) = [] := by
          apply attack_candidates_eq_nil
          intro q hq
          rw [enemyHp_none_iff]
          rcases hfw with hpw | hpw
          · rw [hpw]
            exact (hwall p hplen (by rw [← hpw]; exact hself) q hq).2
          · rw [hpw, Bool.not_not]
            exact henemy_nbr (by rw [← hpw]; exact hself) q hq
        have hcm : ¬ b.can_move p = true := by
          rw [can_move_iff]
          rintro ⟨q, hq, hqe⟩
          exact hnomove q hq (isEmptyCell_iff.1 hqe)
        rw [pick_action_no_enemy hpunit hcand]
        rw [if_neg hcm]
      rw [runTurns_cons, processUnit_of_wait hwait]
      dsimp only
      apply ih
      · intro q hq; exact hsub q (List.mem_cons_of_mem p hq)
      · obtain ⟨p2, hp2mem, hp2⟩ := hbreak
        rcases List.mem_cons.1 hp2mem with rfl | hp2rest
        · exact absurd hp2 hbp
        · exact ⟨p2, hp2rest, hp2⟩

/-- Claim C6 (amended): when the walled-off faction has *no adjacent open
cell at all* (so no in-range cell exists), and the other faction has a
unit able to move, the engine halts during the very first processed round
with zero completed rounds, the total remaining hit points, and the other
faction declared winner.  (When in-range cells exist but are unreachable,
the engine does not terminate; see the counterexample.) -/
theorem C6_walled_off_halts (b : Board) (w : Bool) (hw : 1 ≤ b.width)
    (hwall : ∀ i, i < b.entities.length → sideIs w (b.entityAt i) = true →
      ∀ q ∈ b.nbrs i, b.entityAt q ≠ .Empty ∧ sideIs (!w) (b.entityAt q) = false)
    (hbreak : ∃ p ∈ b.calculate_turn_order, sideIs (!w) (b.entityAt p) = true ∧
      ∃ q ∈ b.nbrs p, b.entityAt q = .Empty) :
    ∀ fuel, 1 ≤ fuel → b.simulateLoop 0 fuel = some (0, b.remaining_hp, !w) := by
  intro fuel hfuel
  obtain ⟨f, rfl⟩ : ∃ f, fuel = f + 1 := ⟨fuel - 1, by omega⟩
  rw [simulateLoop_succ,
    runTurns_walled hw hwall b.calculate_turn_order (fun q hq => hq) hbreak]

/-- Witness for the amended C6 on a concrete map: the goblin is sealed
with no adjacent open cell, so the first round halts immediately with zero
completed rounds and the elves declared winners. -/
theorem C6_walled_off_halts_witness :
    boardC6win.simulateLoop 0 1 = some (0, boardC6win.remaining_hp, true) :=
  C6_walled_off_halts boardC6win false (by decide) (by decide) (by decide) 1 (by decide)

/-- Counterexample to C6 as stated: on `boardC6loop` the goblin's only
in-range cell (index 11) is unreachable for the elf (flood value 255), so
the walled-off premise holds, yet the engine does not terminate at all:
the first round completes with the board unchanged (every unit waits), and
after five rounds the loop is still running. -/
theorem C6_walled_off_counterexample :
    boardC6loop.update_paths 8 11 = 255 ∧
    boardC6loop.find_closest_target 8 (boardC6loop.update_paths 8) = .Unreachable ∧
    boardC6loop.find_closest_target 12 (boardC6loop.update_paths 12) = .Unreachable ∧
    boardC6loop.runTurns boardC6loop.calculate_turn_order = .inl boardC6loop ∧
    boardC6loop.simulateLoop 0 5 = none := by decide

/-! ## Claims C1, C2, C9, C4, C3: concrete evaluations of the engine -/

/-- Claim C1 (code bug evidence).  On `boardC1` the elf is not adjacent to
the goblin, so it moves; it ends its move orthogonally adjacent to the
goblin, yet its micro-turn is over: the resulting board shows the goblin
untouched at 200 hp — no post-move adjacency re-check or attack exists in
the `Move` branch of `simulate`. -/
theorem C1_no_attack_after_move :
    boardC1.pick_action 1 = .Move ∧
    boardC1.processUnit 1 = .inl boardC1after ∧
    boardC1after.entityAt 2 = .Elf 200 ∧
    boardC1after.entityAt 3 = .Goblin 200 ∧
    3 ∈ boardC1after.nbrs 2 := by decide

/-- Claim C2 (code bug evidence).  On `boardC2` there are no elves at all,
so the goblin at index 6 begins its micro-turn with no living enemy
anywhere; but being enclosed it simply waits (`processUnit` continues with
the board unchanged) instead of terminating the simulation; the halt only
happens later, at the free goblin at index 8. -/
theorem C2_no_halt_for_enclosed_unit :
    boardC2.entities.all (fun e => !(elfFlag e)) = true ∧
    boardC2.calculate_turn_order = [6, 8] ∧
    boardC2.entityAt 6 = .Goblin 200 ∧
    boardC2.processUnit 6 = .inl boardC2 ∧
    boardC2.runTurns boardC2.calculate_turn_order = .inr (400, false) := by decide

/-- Claim C9 (code bug evidence).  On `boardC9` the elf at index 1 stands
next to the goblin at index 2, yet `pick_action` returns `Attack 1` — the
acting unit's *own* position (the source's inner closure shadows
`position`, so the candidate tuple carries the attacker's position).  The
micro-turn leaves the goblin at 200 hp and the elf at 197. -/
theorem C9_attacks_own_position :
    boardC9.entityAt 1 = .Elf 200 ∧
    boardC9.entityAt 2 = .Goblin 200 ∧
    2 ∈ boardC9.nbrs 1 ∧
    boardC9.pick_action 1 = .Attack 1 ∧
    boardC9.processUnit 1 = .inl boardC9run1 := by decide

/-- Claim C4 (code bug evidence).  On `boardC4` the in-range cells 11 and
13 are both at the minimal flood distance 1 from the elf at 12, and 11 is
first in reading order; but the candidate enumeration runs enemy-by-enemy
(goblin 8 before goblin 16), so the first minimal entry is 13 and the
chosen target cell is 13, not 11. -/
theorem C4_target_cell_not_reading_first :
    boardC4.pick_action 12 = .Move ∧
    boardC4.entityAt 8 = .Goblin 200 ∧
    boardC4.entityAt 16 = .Goblin 200 ∧
    boardC4.target_candidates (elfFlag (boardC4.entityAt 12)) (boardC4.update_paths 12) =
      [(13, 1), (11, 1)] ∧
    boardC4.find_closest_target 12 (boardC4.update_paths 12) = .Found 13 ∧
    11 < 13 := by decide

/-- Claim C3 (code bug evidence).  On `boardC3` the elf at 11 walks toward
the chosen in-range cell 38 at distance 5.  Both of its neighbours 12 and
20 lie on shortest paths (distance 1 from the elf, then 4 more to 38), and
12 is first in reading order; but the backward walk from the target picks
its locally minimal neighbours and comes out at 20. -/
theorem C3_step_not_reading_first :
    boardC3.update_paths 11 12 = 1 ∧
    boardC3.update_paths 11 20 = 1 ∧
    12 ∈ boardC3.nbrs 11 ∧
    20 ∈ boardC3.nbrs 11 ∧
    boardC3.find_closest_target 11 (boardC3.update_paths 11) = .Found 38 ∧
    boardC3.update_paths 11 38 = 5 ∧
    boardC3.update_paths 12 38 = 4 ∧
    boardC3.update_paths 20 38 = 4 ∧
    boardC3.find_path_to_target 38 (boardC3.update_paths 11) = 20 := by decide

/-! ## Claim C7: parsing -/

/-- Counterexample to C7 as stated: an input with no newline, and a
non-rectangular input (3 cells at width 2), both parse successfully —
neither condition is surfaced as an error. -/
theorem C7_parse_counterexample :
    Board.from_str "##".toList = .ok ⟨[.Wall, .Wall], 2⟩ ∧
    Board.from_str "#.\n#".toList = .ok ⟨[.Wall, .Empty, .Wall], 2⟩ ∧
    (⟨[.Wall, .Empty, .Wall], 2⟩ : Board).entities.length % 2 ≠ 0 :=
  ⟨rfl, rfl, by decide⟩

/-- Claim C7 (amended): parsing surfaces an error exactly when the text
contains a character outside `.#GE` and newline; a missing newline makes
the whole text one row, and rectangularity is never checked. -/
theorem C7_parse_errors (s : List Char) :
    (∃ e, Board.from_str s = .error e) ↔ (∃ c ∈ s, validChar c = false) := by
  unfold Board.from_str
  dsimp only
  cases hf : s.find? (fun c => ! validChar c) with
  | none =>
    dsimp only
    rw [List.find?_eq_none] at hf
    constructor
    · rintro ⟨e, he⟩; simp at he
    · rintro ⟨c, hc, hcv⟩
      have := hf c hc
      rw [hcv] at this
      simp at this
  | some c =>
    dsimp only
    constructor
    · intro _
      refine ⟨c, List.mem_of_find?_eq_some hf, ?_⟩
      have := List.find?_some hf
      simpa using this
    · intro _
      exact ⟨"invalid character", rfl⟩

/-- Witness for the amended C7: a character outside the map alphabet is
rejected. -/
theorem C7_parse_errors_witness :
    ∃ e, Board.from_str "#a#".toList = .error e :=
  (C7_parse_errors "#a#".toList).2 ⟨'a', by decide, by decide⟩

/-! ## Claim C8: hit point saturation and immediate removal -/

/-- Claim C8 (confirmed): damage clamps at zero (hit points are never
negative — over the integers the new value is `max (hp - AP) 0`), death is
reported exactly when `hp ≤ AP`, and at that moment the cell is cleared to
`Empty`: the dead unit no longer appears in any turn order computed from
the new board, and its old cell can only wait.  A surviving unit keeps its
kind with `AP` fewer hit points. -/
theorem C8_hp_saturation (b : Board) (p hp : Nat)
    (hlen : p < b.entities.length)
    (hunit : b.entityAt p = .Elf hp ∨ b.entityAt p = .Goblin hp) :
    (((HitPoints.hit hp).1 : Int) = max ((hp : Int) - (AP : Int)) 0) ∧
    ((HitPoints.hit hp).2 = true ↔ hp ≤ AP) ∧
    (hp ≤ AP → (b.attack p).entityAt p = .Empty ∧
      p ∉ (b.attack p).calculate_turn_order ∧
      (b.attack p).pick_action p = .Wait) ∧
    (AP < hp → b.entityAt p = .Elf hp → (b.attack p).entityAt p = .Elf (hp - AP)) ∧
    (AP < hp → b.entityAt p = .Goblin hp → (b.attack p).entityAt p = .Goblin (hp - AP)) := by
  have hAP : AP = 3 := rfl
  refine ⟨?_, ?_, ?_, ?_, ?_⟩
  · rw [HitPoints.hit]
    by_cases h : hp ≤ AP
    · rw [if_pos h]
      rw [max_eq_right (by rw [hAP] at h ⊢; push_cast; omega)]
      simp
    · rw [if_neg h]
      rw [max_eq_left (by rw [hAP] at h ⊢; push_cast; omega)]
      rw [hAP] at h ⊢
      push_cast [Nat.cast_sub (by omega : 3 ≤ hp)]
      ring
  · rw [HitPoints.hit]
    by_cases h : hp ≤ AP
    · rw [if_pos h]; simpa using h
    · rw [if_neg h]; simpa using h
  · intro h
    have hdead : (HitPoints.hit hp).2 = true := by rw [HitPoints.hit, if_pos h]
    have hcell : (b.attack p).entityAt p = .Empty := by
      unfold Board.attack
      rcases hunit with hE | hE <;> rw [hE] <;> dsimp only <;> rw [if_pos hdead] <;>
        simp only [Board.entityAt] <;> exact getD_set_self hlen _ _
    refine ⟨hcell, ?_, ?_⟩
    · intro hmem
      have hu := (mem_turn_order.1 hmem).2
      rw [hcell] at hu
      simp [isUnit] at hu
    · unfold Board.pick_action
      rw [hcell]
  · intro h hE
    have halive : (HitPoints.hit hp).2 = false := by
      rw [HitPoints.hit, if_neg (by omega)]
    unfold Board.attack
    rw [hE]
    dsimp only
    rw [if_neg (by rw [halive]; simp)]
    simp only [Board.entityAt]
    rw [getD_set_self hlen]
    rw [HitPoints.hit, if_neg (by omega)]
  · intro h hE
    have halive : (HitPoints.hit hp).2 = false := by
      rw [HitPoints.hit, if_neg (by omega)]
    unfold Board.attack
    rw [hE]
    dsimp only
    rw [if_neg (by rw [halive]; simp)]
    simp only [Board.entityAt]
    rw [getD_set_self hlen]
    rw [HitPoints.hit, if_neg (by omega)]

/-- Witness for C8 on a one-cell board holding a 2 hp elf: one hit kills
it and clears the cell. -/
theorem C8_hp_saturation_witness :
    ((Board.mk [.Elf 2] 1).attack 0).entityAt 0 = .Empty :=
  ((C8_hp_saturation ⟨[.Elf 2], 1⟩ 0 2 (by decide) (Or.inl (by decide))).2.2.1
    (by decide)).1

/-! ## Claim C10: the flood fill against shortest paths -/

/-- Claim C10 (amended): the recursive flood fill terminates — any fuel
beyond the canonical 256 computes the same map — and the value it leaves at
every cell is the shortest `Empty`-walk distance from the start *capped at
255*: the start reads 0, every value is at most 255, every value below 255
is realised by an actual path of exactly that length, and every path's
length bounds the value from below.  (The cap is why the claim as stated
fails on paths of length 255 or more; see the counterexample.) -/
theorem C10_flood_is_bfs (b : Board) (s : Nat) :
    (∀ f, 255 < f → b.calculate_path_go f s 0 (fun _ => UNREACHABLE) = b.update_paths s) ∧
    b.update_paths s s = 0 ∧
    (∀ x, b.update_paths s x ≤ 255) ∧
    (∀ x, b.update_paths s x < 255 → PathN b s x (b.update_paths s x)) ∧
    (∀ x k, PathN b s x k → b.update_paths s x ≤ k) :=
  ⟨fun _ hf => update_paths_fuel_eq b s hf, update_paths_root b s, update_paths_bounded b s,
   fun _ hx => update_paths_exact b s hx, fun _ _ hk => update_paths_le b s hk⟩

/-- Witness for C10 on a concrete board. -/
theorem C10_flood_is_bfs_witness :
    boardC1.calculate_path_go 300 1 0 (fun _ => UNREACHABLE) = boardC1.update_paths 1 ∧
    boardC1.update_paths 1 1 = 0 ∧
    boardC1.update_paths 1 99 ≤ 255 ∧
    boardC1.update_paths 1 1 ≤ 0 :=
  ⟨(C10_flood_is_bfs boardC1 1).1 300 (by decide),
   (C10_flood_is_bfs boardC1 1).2.1,
   (C10_flood_is_bfs boardC1 1).2.2.1 99,
   (C10_flood_is_bfs boardC1 1).2.2.2.2 1 0 PathN.refl⟩

theorem corridor_entityAt (i : Nat) :
    corridor.entityAt i = if i < 518 then corridorEnt i else .Wall := by
  unfold corridor Board.entityAt
  rw [List.getD_eq_getElem?_getD]
  by_cases h : i < 518
  · rw [if_pos h, List.getElem?_map, List.getElem?_range (by simpa using h)]
    rfl
  · rw [if_neg h, List.getElem?_map, List.getElem?_eq_none (by simp; omega)]
    rfl

/-- On the corridor, any path cell beyond the start is an open corridor
cell, and paths advance at most one index per step. -/
theorem corridor_path_bound : ∀ {x k : Nat}, PathN corridor 1 x k → x ≤ 1 + k := by
  intro x k h
  induction h with
  | refl => omega
  | step hp hnb hemp ih =>
    rename_i y q k2
    have hq : 2 ≤ q ∧ q ≤ 257 := by
      rw [corridor_entityAt] at hemp
      by_cases h1 : q < 518
      · rw [if_pos h1] at hemp
        unfold corridorEnt at hemp
        split_ifs at hemp
        omega
      · rw [if_neg h1] at hemp; exact absurd hemp (by simp)
    obtain ⟨d, hd⟩ := mem_nbrs.1 hnb
    rw [show corridor.width = 259 from rfl] at hd
    cases d with
    | North =>
      rw [Position.to] at hd
      split at hd
      · have := Option.some.inj hd; omega
      · exact absurd hd (by simp)
    | West =>
      rw [Position.to] at hd
      split at hd
      · have := Option.some.inj hd; omega
      · exact absurd hd (by simp)
    | East =>
      rw [Position.to] at hd
      split at hd
      · have := Option.some.inj hd; omega
      · exact absurd hd (by simp)
    | South =>
      rw [Position.to] at hd
      have := Option.some.inj hd
      omega

/-- The corridor really contains a 256-step path from the goblin to the
far end. -/
theorem corridor_path : ∀ j, j ≤ 255 → PathN corridor 1 (2 + j) (1 + j) := by
  intro j
  induction j with
  | zero =>
    intro _
    refine PathN.step PathN.refl ?_ ?_
    · refine mem_nbrs.2 ⟨.East, ?_⟩
      rw [show corridor.width = 259 from rfl, Position.to]
      rw [if_pos (by omega)]
    · rw [corridor_entityAt, if_pos (by omega)]
      rfl
  | succ j ih =>
    intro hj
    refine PathN.step (ih (by omega)) ?_ ?_
    · refine mem_nbrs.2 ⟨.East, ?_⟩
      rw [show corridor.width = 259 from rfl, Position.to]
      rw [if_pos ?_]
      · simp only [Option.some.injEq]; omega
      · rw [Nat.mod_eq_of_lt (by omega)]; omega
    · rw [corridor_entityAt, if_pos (by omega)]
      unfold corridorEnt
      rw [if_neg (by omega), if_neg (by omega), if_neg (by omega), if_neg (by omega)]

/-- Counterexample to C10 as stated: on the corridor board, the far end
(index 257) is genuinely reachable — a 256-step path exists and no 255-step
path does — yet the flood map records `UNREACHABLE` (255) there, which is
neither the shortest-path length nor a correct "no path" marker. -/
theorem C10_flood_is_bfs_counterexample :
    corridor.update_paths 1 257 = 255 ∧
    PathN corridor 1 257 256 ∧
    ¬ PathN corridor 1 257 255 := by
  have hpath : PathN corridor 1 257 256 := by
    have h := corridor_path 255 (le_refl _)
    simpa using h
  refine ⟨?_, hpath, ?_⟩
  · have hb := update_paths_bounded corridor 1 257
    rcases lt_or_eq_of_le hb with hlt | heq
    · exfalso
      have hp := update_paths_exact corridor 1 hlt
      have hbound := corridor_path_bound hp
      omega
    · exact heq
  · intro hp
    have := corridor_path_bound hp
    omega

end Aoc15
